import Mathlib

/-
  Verification development for the monorepo-changelog-cli repository.

  The definitions below are a shallow embedding of the TypeScript sources:
    - src/core/version.ts        (VersionManager)
    - src/core/workspace.ts      (WorkspaceManager.updatePackageDependency)
    - src/core/cache.ts          (CacheManager)
    - src/commands/update.ts     (UpdateCommand)
    - dist/index.js              (legacy VersionManager: executeVersionUpdate,
                                  batchUpdateVersions, checkVersionConflicts)
  together with a model of the external node-semver library functions the
  code calls (valid / compare / inc / satisfies), restricted to the
  specifier forms that occur in this repository's domain.

  JavaScript strings are modelled as Lean String, string-keyed objects as
  association lists with unique keys, Date timestamps as Int milliseconds,
  thrown exceptions as Except, and file writes as returned values.
-/

/-- Model of JavaScript String.prototype.startsWith. -/
def jsStartsWith (s pre : String) : Bool :=
  List.isPrefixOf pre.data s.data

/-- Model of JavaScript String.prototype.includes: substring containment. -/
def charsContain : List Char → List Char → Bool
  | [], needle => needle.isEmpty
  | c :: rest, needle => List.isPrefixOf needle (c :: rest) || charsContain rest needle

/-- Model of JavaScript String.prototype.includes on Lean strings. -/
def jsIncludes (s sub : String) : Bool :=
  charsContain s.data sub.data

/-- Lookup in a string-keyed record (JavaScript object property access). -/
def mapLookup (m : List (String × String)) (k : String) : Option String :=
  match m with
  | [] => none
  | (k', v) :: rest => if k' = k then some v else mapLookup rest k

/-- Set a property on a string-keyed record: replace the binding if the key
is present, append it otherwise (JavaScript object assignment). -/
def recordSet (m : List (String × String)) (k v : String) : List (String × String) :=
  match m with
  | [] => [(k, v)]
  | (k', v') :: rest =>
      if k' = k then (k, v) :: rest else (k', v') :: recordSet rest k v

/-- Model of JavaScript Object.assign(target, updates): set every key of
`updates` on `target`, in order. -/
def objectAssign (target updates : List (String × String)) : List (String × String) :=
  updates.foldl (fun m kv => recordSet m kv.1 kv.2) target

/- ===================== node-semver model ===================== -/

/-- Prerelease identifier of a semantic version: numeric or alphanumeric
(node-semver compares numeric identifiers numerically and below all
alphanumeric ones). -/
inductive PreId where
  | num (n : Nat)
  | str (s : String)
deriving DecidableEq, Repr

/-- A parsed semantic version `major.minor.patch(-prerelease)?`. -/
structure Semver where
  major : Nat
  minor : Nat
  patch : Nat
  pre : List PreId
deriving DecidableEq, Repr

/-- Split a character list at every occurrence of a separator character. -/
def splitOnChar (sep : Char) : List Char → List (List Char)
  | [] => [[]]
  | c :: rest =>
      let r := splitOnChar sep rest
      if c = sep then [] :: r
      else
        match r with
        | [] => [[c]]
        | g :: gs => (c :: g) :: gs

/-- Parse a decimal numeral with no leading zero (the semver numeric rule). -/
def parseSemverNat (cs : List Char) : Option Nat :=
  if cs.isEmpty then none
  else if cs.all Char.isDigit then
    if cs.length > 1 && cs.headD '0' = '0' then none
    else some (cs.foldl (fun n c => n * 10 + (c.toNat - '0'.toNat)) 0)
  else none

/-- Parse one prerelease identifier (numeric without leading zeros, or an
alphanumeric/hyphen identifier). -/
def parsePreId (cs : List Char) : Option PreId :=
  if cs.isEmpty then none
  else if cs.all Char.isDigit then
    match parseSemverNat cs with
    | some n => some (PreId.num n)
    | none => none
  else if cs.all (fun c => c.isAlphanum || c = '-') then
    some (PreId.str (String.mk cs))
  else none

/-- Parse a list of prerelease identifiers separated by dots. -/
def parsePreIds (groups : List (List Char)) : Option (List PreId) :=
  match groups with
  | [] => some []
  | g :: gs =>
      match parsePreId g, parsePreIds gs with
      | some i, some is => some (i :: is)
      | _, _ => none

/-- Trim ASCII whitespace from both ends of a character list. -/
def trimChars (cs : List Char) : List Char :=
  ((cs.dropWhile Char.isWhitespace).reverse.dropWhile Char.isWhitespace).reverse

/-- Parse a version from characters: optional leading `v`,
`major.minor.patch`, optional `-prerelease`; build metadata is not used by
this repository and is rejected. -/
def parseSemverChars (cs0 : List Char) : Option Semver :=
  let cs := match cs0 with
    | 'v' :: rest => rest
    | _ => cs0
  let core := cs.takeWhile (· ≠ '-')
  let rest := cs.drop core.length
  let preIds : Option (List PreId) :=
    match rest with
    | [] => some []
    | '-' :: pcs => parsePreIds (splitOnChar '.' pcs)
    | _ => none
  match splitOnChar '.' core with
  | [a, b, c] =>
      match parseSemverNat a, parseSemverNat b, parseSemverNat c, preIds with
      | some x, some y, some z, some p => some ⟨x, y, z, p⟩
      | _, _, _, _ => none
  | _ => none

/-- Model of node-semver version parsing (strict mode). -/
def parseSemver (s : String) : Option Semver :=
  parseSemverChars (trimChars s.data)

/-- Compare two prerelease identifiers (node-semver compareIdentifiers). -/
def comparePreId (a b : PreId) : Ordering :=
  match a, b with
  | PreId.num n, PreId.num m => compare n m
  | PreId.num _, PreId.str _ => Ordering.lt
  | PreId.str _, PreId.num _ => Ordering.gt
  | PreId.str s, PreId.str t => compare s t

/-- Compare two prerelease identifier lists: a shorter list that agrees on a
common front is smaller; an empty list belongs to a release and is handled by
the caller. -/
def comparePreList : List PreId → List PreId → Ordering
  | [], [] => Ordering.eq
  | [], _ :: _ => Ordering.lt
  | _ :: _, [] => Ordering.gt
  | a :: as', b :: bs' =>
      match comparePreId a b with
      | Ordering.eq => comparePreList as' bs'
      | o => o

/-- Model of node-semver compare: lexicographic on the numeric triple, then a
release outranks any prerelease of the same triple, then identifier-wise
prerelease comparison. -/
def compareSemver (a b : Semver) : Ordering :=
  match compare a.major b.major with
  | Ordering.eq =>
      match compare a.minor b.minor with
      | Ordering.eq =>
          match compare a.patch b.patch with
          | Ordering.eq =>
              match a.pre, b.pre with
              | [], [] => Ordering.eq
              | [], _ :: _ => Ordering.gt
              | _ :: _, [] => Ordering.lt
              | _, _ => comparePreList a.pre b.pre
          | o => o
      | o => o
  | o => o

/-- Bump categories, per semantic versioning. -/
inductive BumpType where
  | major
  | minor
  | patch
deriving DecidableEq, Repr

/-- Model of node-semver inc for release increments (major/minor/patch),
including its special cases for versions that carry a prerelease tag. -/
def incSemver (v : Semver) (t : BumpType) : Semver :=
  match t with
  | BumpType.patch =>
      if v.pre.isEmpty then ⟨v.major, v.minor, v.patch + 1, []⟩
      else ⟨v.major, v.minor, v.patch, []⟩
  | BumpType.minor =>
      if v.patch ≠ 0 || v.pre.isEmpty then ⟨v.major, v.minor + 1, 0, []⟩
      else ⟨v.major, v.minor, 0, []⟩
  | BumpType.major =>
      if v.minor ≠ 0 || v.patch ≠ 0 || v.pre.isEmpty then ⟨v.major + 1, 0, 0, []⟩
      else ⟨v.major, 0, 0, []⟩

/-- Render a prerelease identifier back to its string form. -/
def renderPreId (i : PreId) : String :=
  match i with
  | PreId.num n => toString n
  | PreId.str s => s

/-- Render a parsed semantic version back to its string form. -/
def renderSemver (v : Semver) : String :=
  toString v.major ++ "." ++ toString v.minor ++ "." ++ toString v.patch ++
    (match v.pre with
     | [] => ""
     | i :: is => "-" ++ (List.foldl (fun acc j => acc ++ "." ++ renderPreId j) (renderPreId i) is))

/-- Model of the string-level node-semver inc: none on an unparsable input. -/
def semverInc (s : String) (t : BumpType) : Option String :=
  (parseSemver s).map (fun v => renderSemver (incSemver v t))

/-- Comparator operators of a semver range. -/
inductive RangeOp where
  | lt
  | le
  | gt
  | ge
  | eq
deriving DecidableEq, Repr

/-- A single comparator of a semver range. -/
structure Comparator where
  op : RangeOp
  ver : Semver
deriving DecidableEq, Repr

/-- Does a version pass one comparator? -/
def comparatorTest (v : Semver) (c : Comparator) : Bool :=
  match c.op, compareSemver v c.ver with
  | RangeOp.lt, Ordering.lt => true
  | RangeOp.le, Ordering.lt => true
  | RangeOp.le, Ordering.eq => true
  | RangeOp.gt, Ordering.gt => true
  | RangeOp.ge, Ordering.gt => true
  | RangeOp.ge, Ordering.eq => true
  | RangeOp.eq, Ordering.eq => true
  | _, _ => false

/-- Desugar a caret range on a full version, as node-semver does:
the upper bound gets a `-0` prerelease tag. -/
def caretComparators (v : Semver) : List Comparator :=
  if v.major ≠ 0 then
    [⟨RangeOp.ge, v⟩, ⟨RangeOp.lt, ⟨v.major + 1, 0, 0, [PreId.num 0]⟩⟩]
  else if v.minor ≠ 0 then
    [⟨RangeOp.ge, v⟩, ⟨RangeOp.lt, ⟨0, v.minor + 1, 0, [PreId.num 0]⟩⟩]
  else
    [⟨RangeOp.ge, v⟩, ⟨RangeOp.lt, ⟨0, 0, v.patch + 1, [PreId.num 0]⟩⟩]

/-- Desugar a tilde range on a full version, as node-semver does. -/
def tildeComparators (v : Semver) : List Comparator :=
  [⟨RangeOp.ge, v⟩, ⟨RangeOp.lt, ⟨v.major, v.minor + 1, 0, [PreId.num 0]⟩⟩]

/-- Model of node-semver range parsing, restricted to the specifier forms
exercised by this repository: `*`, an exact version, caret and tilde ranges,
and single primitive comparators on a full version.  Every other string —
in particular every `workspace:` protocol specifier — is an invalid range. -/
def parseRange (s : String) : Option (List Comparator) :=
  let t := trimChars s.data
  if t = [] || t = ['*'] || t = ['x'] || t = ['X'] then some []
  else match t with
    | '^' :: rest => (parseSemverChars rest).map caretComparators
    | '~' :: rest => (parseSemverChars rest).map tildeComparators
    | '>' :: '=' :: rest => (parseSemverChars rest).map (fun v => [⟨RangeOp.ge, v⟩])
    | '<' :: '=' :: rest => (parseSemverChars rest).map (fun v => [⟨RangeOp.le, v⟩])
    | '>' :: rest => (parseSemverChars rest).map (fun v => [⟨RangeOp.gt, v⟩])
    | '<' :: rest => (parseSemverChars rest).map (fun v => [⟨RangeOp.lt, v⟩])
    | '=' :: rest => (parseSemverChars rest).map (fun v => [⟨RangeOp.eq, v⟩])
    | _ => (parseSemverChars t).map (fun v => [⟨RangeOp.eq, v⟩])

/-- Does a version lie in a comparator set?  Implements node-semver's
prerelease rule: a version carrying a prerelease tag only matches when some
comparator mentions a prerelease on the same numeric triple. -/
def rangeTest (r : List Comparator) (v : Semver) : Bool :=
  r.all (comparatorTest v) &&
    (v.pre.isEmpty ||
      r.any (fun c =>
        !c.ver.pre.isEmpty && c.ver.major = v.major &&
          c.ver.minor = v.minor && c.ver.patch = v.patch))

/-- Model of node-semver satisfies: false whenever the version or the range
fails to parse (node-semver catches the range parse error and returns false,
which is what happens on `workspace:` protocol specifiers). -/
def semverSatisfies (version range : String) : Bool :=
  match parseSemver version, parseRange range with
  | some v, some r => rangeTest r v
  | _, _ => false

/-- Model of node-semver valid, as a Bool. -/
def semverValidB (version : String) : Bool :=
  (parseSemver version).isSome

/-- String-level strict semver greater-than; false when either side fails to
parse. -/
def semverGtStr (a b : String) : Bool :=
  match parseSemver a, parseSemver b with
  | some x, some y => compareSemver x y = Ordering.gt
  | _, _ => false

example : parseSemver "1.0.0" = some ⟨1, 0, 0, []⟩ := by decide
example : semverInc "1.0.0" BumpType.patch = some "1.0.1" := by decide
example : semverInc "1.2.3" BumpType.major = some "2.0.0" := by decide
example : semverSatisfies "1.0.1" "^1.0.0" = true := by decide
example : semverSatisfies "2.0.0" "^1.0.0" = false := by decide
example : semverSatisfies "1.0.1" "workspace:*" = false := by decide
example : semverSatisfies "1.0.1" "1.0.0" = false := by decide
example : semverSatisfies "1.2.9" "~1.2.3" = true := by decide
example : semverSatisfies "1.3.0" "~1.2.3" = false := by decide
example : semverSatisfies "2.0.0-alpha" "^1.0.0" = false := by decide
example : semverGtStr "1.0.1" "1.0.0" = true := by decide
example : semverGtStr "1.0.0" "1.0.0-alpha" = true := by decide

/- ===================== data model ===================== -/

/-- A workspace package record (src/types: PackageInfo), with its three
dependency maps from the package manifest. -/
structure PackageInfo where
  name : String
  version : String
  path : String
  dependencies : List (String × String)
  devDependencies : List (String × String)
  peerDependencies : List (String × String)
deriving DecidableEq, Repr

/-- The dependency graph: package name to the list of in-repo package names
it depends on (src/types: DependencyGraph), in insertion order. -/
abbrev DependencyGraph : Type := List (String × List String)

/-- A per-package update strategy (src/types: VersionUpdateStrategy). -/
structure VersionUpdateStrategy where
  type : BumpType
  package : String
  reason : String
deriving DecidableEq, Repr

/-- A commit record, restricted to the fields the embedded functions read
(src/types: CommitInfo also carries author, date, files and a type tag). -/
structure CommitInfo where
  hash : String
  message : String
deriving DecidableEq, Repr

/-- Model of the JavaScript Map built by `packages.forEach(pkg =>
packageMap.set(pkg.name, pkg))`: a later entry with the same name wins. -/
def packageMapGet (packages : List PackageInfo) (name : String) : Option PackageInfo :=
  packages.reverse.find? (fun p => p.name = name)

/- ===================== src/utils/workspaceUtils.ts ===================== -/

/-- isSpecialWorkspaceVersion (src/utils/workspaceUtils.ts:4-6). -/
def isSpecialWorkspaceVersion (version : String) : Bool :=
  version = "workspace:*" || version = "workspace:^" || version = "workspace:~"

/-- WorkspaceManager.isWorkspaceDependency (src/core/workspace.ts:168-170). -/
def isWorkspaceDependency (version : String) : Bool :=
  jsStartsWith version "workspace:"

/- ===================== src/core/version.ts ===================== -/

/-- The regular expression test `msg.match(/^(\w+)(\(.+\))?!:/)`: JavaScript
word characters. -/
def isWordChar (c : Char) : Bool :=
  c.isAlphanum || c = '_'

/-- A character matched by `.` in a JavaScript regular expression (anything
but a line terminator). -/
def isDotChar (c : Char) : Bool :=
  !(c = '\n' || c = '\r' || c.toNat = 8232 || c.toNat = 8233)

/-- Does the remainder start with the literal `!:`? -/
def bangColonAt (rest : List Char) : Bool :=
  match rest with
  | '!' :: ':' :: _ => true
  | _ => false

/-- Scan for a closing parenthesis followed by `!:` after at least one
`.`-matched character, trying every split the regex engine would try. -/
def scanParen : List Char → Bool → Bool
  | [], _ => false
  | c :: rest, seen =>
      (c = ')' && seen && bangColonAt rest) || (isDotChar c && scanParen rest true)

/-- After the word-character block: either `!:` directly, or a parenthesised
scope (at least one `.`-matched character) followed by `!:`. -/
def afterWordBlock (rest : List Char) : Bool :=
  bangColonAt rest ||
    (match rest with
     | '(' :: t => scanParen t false
     | _ => false)

/-- Scan a non-empty word-character block, trying every split point. -/
def scanWordBlock : List Char → Bool
  | [] => false
  | c :: rest => isWordChar c && (afterWordBlock rest || scanWordBlock rest)

/-- Decision of the JavaScript test `msg.match(/^(\w+)(\(.+\))?!:/) !== null`
used by VersionManager.calculateVersionBump. -/
def matchesBangHeader (msg : String) : Bool :=
  scanWordBlock msg.data

/-- The breaking-change test applied to one commit message
(src/core/version.ts:33-37). -/
def msgHasBreaking (msg : String) : Bool :=
  jsIncludes msg "BREAKING CHANGE" || jsIncludes msg "!:" || matchesBangHeader msg

/-- The feature test applied to one commit message
(src/core/version.ts:44-47). -/
def msgHasFeature (msg : String) : Bool :=
  jsStartsWith msg "feat:" || jsStartsWith msg "feat("

/-- VersionManager.calculateVersionBump (src/core/version.ts:23-55): explicit
override first, then breaking changes, then features, else patch.  The
currentVersion argument is accepted and ignored, as in the source. -/
def calculateVersionBump (currentVersion : String) (commitMessages : List String)
    (bumpType : Option BumpType) : BumpType :=
  match bumpType with
  | some b => b
  | none =>
      if commitMessages.any msgHasBreaking then BumpType.major
      else if commitMessages.any msgHasFeature then BumpType.minor
      else BumpType.patch

/-- VersionManager.calculateNewVersion (src/core/version.ts:60-69): semver.inc,
throwing on failure. -/
def calculateNewVersion (currentVersion : String) (bumpType : BumpType) :
    Except String String :=
  match semverInc currentVersion bumpType with
  | some v => Except.ok v
  | none => Except.error ("无法计算新版本号: " ++ currentVersion)

/-- VersionManager.validateVersion (src/core/version.ts:74-76). -/
def validateVersion (version : String) : Bool :=
  semverValidB version

/-- VersionManager.getDependentPackages (src/core/version.ts:88-98): the
graph entries whose dependency list contains the package, in graph order. -/
def getDependentPackages (graph : DependencyGraph) (packageName : String) : List String :=
  (graph.filter (fun e => e.2.contains packageName)).map (fun e => e.1)

/-- The names of the graph entries. -/
def graphKeys (graph : DependencyGraph) : List String :=
  graph.map (fun e => e.1)

/-- The depth-first traversal inside VersionManager.getPackagesToUpdate
(src/core/version.ts:103-125), as an explicit worklist: visit the head of the
stack; if unseen, record it and push its dependents in front.  `visited` is
the insertion-ordered visited set.  The recursion pattern is identical to the
source's addPackageAndDependents closure. -/
def expandDfs (graph : DependencyGraph) : List String → List String → List String
  | [], visited => visited
  | p :: rest, visited =>
      if p ∈ visited then expandDfs graph rest visited
      else expandDfs graph (getDependentPackages graph p ++ rest) (visited ++ [p])
termination_by stack visited =>
  ((((graphKeys graph ++ stack).toFinset) \ visited.toFinset).card, stack.length)
decreasing_by
  · apply Prod.Lex.right'
    · apply Finset.card_le_card
      apply Finset.sdiff_subset_sdiff
      · intro x hx
        simp only [List.toFinset_append, Finset.mem_union, List.mem_toFinset,
          List.mem_cons] at hx ⊢
        tauto
      · exact Finset.Subset.refl _
    · simp
  · apply Prod.Lex.left
    apply Finset.card_lt_card
    have hsub : (graphKeys graph ++ (getDependentPackages graph p ++ rest)).toFinset \
        (visited ++ [p]).toFinset ⊆
        (graphKeys graph ++ p :: rest).toFinset \ visited.toFinset := by
      intro x hx
      simp only [Finset.mem_sdiff, List.toFinset_append, Finset.mem_union,
        List.mem_toFinset, List.mem_cons, List.mem_singleton] at hx ⊢
      rcases hx with ⟨hmem, hnv⟩
      refine ⟨?_, fun hv => hnv (Or.inl hv)⟩
      rcases hmem with h | h | h
      · exact Or.inl h
      · rcases List.mem_map.mp h with ⟨e, he, hex⟩
        exact Or.inl (hex ▸ List.mem_map_of_mem _ (List.mem_of_mem_filter he))
      · exact Or.inr (Or.inr h)
    apply (Finset.ssubset_iff_of_subset hsub).mpr
    refine ⟨p, ?_, ?_⟩
    · simp only [Finset.mem_sdiff, List.toFinset_append, Finset.mem_union,
        List.mem_toFinset, List.mem_cons]
      exact ⟨Or.inr (Or.inl trivial), by assumption⟩
    · simp only [Finset.mem_sdiff, List.toFinset_append, Finset.mem_union,
        List.mem_toFinset, List.mem_singleton, not_and, not_not]
      intro _
      simp

/-- VersionManager.getPackagesToUpdate (src/core/version.ts:103-125). -/
def getPackagesToUpdate (graph : DependencyGraph) (packageNames : List String) : List String :=
  expandDfs graph packageNames []

/-- Unfolding lemma for the empty worklist (the well-founded definition does
not reduce definitionally). -/
theorem expandDfs_nil (graph : DependencyGraph) (visited : List String) :
    expandDfs graph [] visited = visited := by
  rw [expandDfs]

/-- Unfolding lemma for a non-empty worklist. -/
theorem expandDfs_cons (graph : DependencyGraph) (p : String) (rest visited : List String) :
    expandDfs graph (p :: rest) visited =
      if p ∈ visited then expandDfs graph rest visited
      else expandDfs graph (getDependentPackages graph p ++ rest) (visited ++ [p]) := by
  rw [expandDfs]

example :
    getPackagesToUpdate [("a", ["b"]), ("b", []), ("c", ["b"])] ["b"] = ["b", "a", "c"] := by
  simp +decide [getPackagesToUpdate, expandDfs_cons, expandDfs_nil, getDependentPackages]

example :
    getPackagesToUpdate [("a", ["b"]), ("b", ["a"])] ["a"] = ["a", "b"] := by
  simp +decide [getPackagesToUpdate, expandDfs_cons, expandDfs_nil, getDependentPackages]

/-- The loop body of VersionManager.createUpdatePlan (src/core/version.ts:
141-154): skip a name without a package record, otherwise produce the
strategy with the explicit-or-patch bump and a reason recording whether the
name was a direct target. -/
def planStrategyFor (packages : List PackageInfo) (targetPackages : List String)
    (bumpType : Option BumpType) (packageName : String) : Option VersionUpdateStrategy :=
  match packageMapGet packages packageName with
  | none => none
  | some _ =>
      some { type := bumpType.getD BumpType.patch
             package := packageName
             reason := if targetPackages.contains packageName then "直接更新" else "依赖更新" }

/-- VersionManager.createUpdatePlan (src/core/version.ts:130-157): one
strategy per discovered package that has a package record. -/
def createUpdatePlan (graph : DependencyGraph) (packages : List PackageInfo)
    (targetPackages : List String) (bumpType : Option BumpType) :
    List VersionUpdateStrategy :=
  (getPackagesToUpdate graph targetPackages).filterMap
    (planStrategyFor packages targetPackages bumpType)

/-- The effective dependency specifier lookup
`pkg.dependencies[p] || pkg.devDependencies[p] || pkg.peerDependencies[p]`
followed by a truthiness check: the first non-empty binding across the three
maps, none when all are absent or empty (the empty string is falsy). -/
def firstTruthy : List (Option String) → Option String
  | [] => none
  | some v :: rest => if v = "" then firstTruthy rest else some v
  | none :: rest => firstTruthy rest

/-- First truthy specifier for a dependency across the three dependency maps
(runtime, dev, peer) of a package. -/
def lookupSpecifier (pkg : PackageInfo) (depName : String) : Option String :=
  firstTruthy [mapLookup pkg.dependencies depName,
    mapLookup pkg.devDependencies depName,
    mapLookup pkg.peerDependencies depName]

/- ===================== dist/index.js VersionManager ===================== -/

/-- VersionManager.executeVersionUpdate (dist/index.js:167-179): validate the
new version, require it to be strictly greater than the current one, then
write the manifest.  The manifest write is modelled as the returned record;
an error is thrown before any write.  node-semver compare throws on an
unparsable input, modelled by the catch-all error branch. -/
def executeVersionUpdate (packageInfo : PackageInfo) (newVersion : String) :
    Except String PackageInfo :=
  if !validateVersion newVersion then
    Except.error ("无效的版本号: " ++ newVersion)
  else
    match parseSemver newVersion, parseSemver packageInfo.version with
    | some nv, some ov =>
        if compareSemver nv ov ≠ Ordering.gt then
          Except.error ("新版本号 " ++ newVersion ++ " 不能小于或等于当前版本 " ++ packageInfo.version)
        else
          Except.ok { packageInfo with version := newVersion }
    | _, _ => Except.error ("Invalid Version: " ++ packageInfo.version)

/-- A manifest write performed by the batch updater: package name, version
before, version after. -/
structure WriteEvent where
  package : String
  old : String
  new : String
deriving DecidableEq, Repr

/-- VersionManager.batchUpdateVersions (dist/index.js:180-193): process the
strategies in order; a missing package record is skipped with a warning; a
thrown error aborts the loop, leaving earlier writes in place.  Returns the
writes that happened and the error that stopped the run, if any. -/
def batchUpdateVersions (packages : List PackageInfo)
    (strategies : List VersionUpdateStrategy) : List WriteEvent × Option String :=
  match strategies with
  | [] => ([], none)
  | s :: rest =>
      match packageMapGet packages s.package with
      | none => batchUpdateVersions packages rest
      | some pkg =>
          match calculateNewVersion pkg.version s.type with
          | Except.error e => ([], some e)
          | Except.ok newVersion =>
              match executeVersionUpdate pkg newVersion with
              | Except.error e => ([], some e)
              | Except.ok _ =>
                  let r := batchUpdateVersions packages rest
                  (⟨s.package, pkg.version, newVersion⟩ :: r.1, r.2)

/-- VersionManager.checkVersionConflicts (dist/index.js:194-223): for every
strategy, compute the candidate new version, then for every dependent that
has a package record and a truthy specifier for the bumped package, report a
conflict when node-semver satisfies rejects the candidate against that
specifier.  A calculateNewVersion failure is caught and reported as a
conflict entry for the strategy's package. -/
def checkVersionConflicts (graph : DependencyGraph) (packages : List PackageInfo)
    (strategies : List VersionUpdateStrategy) : List String :=
  strategies.foldl (fun conflicts strategy =>
    match packageMapGet packages strategy.package with
    | none => conflicts
    | some pkg =>
        match calculateNewVersion pkg.version strategy.type with
        | Except.error e => conflicts ++ [strategy.package ++ ": " ++ e]
        | Except.ok newVersion =>
            conflicts ++ (getDependentPackages graph strategy.package).foldl
              (fun acc dependentName =>
                match packageMapGet packages dependentName with
                | none => acc
                | some dependent =>
                    match lookupSpecifier dependent strategy.package with
                    | none => acc
                    | some requiredVersion =>
                        if !(semverSatisfies newVersion requiredVersion) then
                          acc ++ [dependentName ++ " 需要 " ++ strategy.package ++ "@" ++
                            requiredVersion ++ "，但计划更新到 " ++ newVersion]
                        else acc) []) []

/- ======== src/core/workspace.ts dependency rewriting ======== -/

/-- The three-way specifier rewrite of WorkspaceManager.updatePackageDependency
(src/core/workspace.ts:267-299): keep a special workspace wildcard, keep the
`workspace:` protocol with the version part substituted, replace a plain
specifier with the bare new version. -/
def rewriteSpec (currentVersion newVersion : String) : String :=
  if isWorkspaceDependency currentVersion && isSpecialWorkspaceVersion currentVersion then
    currentVersion
  else if isWorkspaceDependency currentVersion then
    "workspace:" ++ newVersion
  else
    newVersion

/-- Apply the rewrite to one dependency map, when the dependency is present
with a truthy specifier. -/
def rewriteDepMap (deps : List (String × String)) (dependencyName newVersion : String) :
    List (String × String) :=
  match mapLookup deps dependencyName with
  | some currentVersion =>
      if currentVersion ≠ "" then
        recordSet deps dependencyName (rewriteSpec currentVersion newVersion)
      else deps
  | none => deps

/-- WorkspaceManager.updatePackageDependency (src/core/workspace.ts:252-337):
rewrite the specifier for a dependency in all three dependency maps of one
package (the source applies the same logic to the manifest file and the
in-memory record; both are this one record here). -/
def updatePackageDependency (pkg : PackageInfo) (dependencyName newVersion : String) :
    PackageInfo :=
  { pkg with
    dependencies := rewriteDepMap pkg.dependencies dependencyName newVersion
    devDependencies := rewriteDepMap pkg.devDependencies dependencyName newVersion
    peerDependencies := rewriteDepMap pkg.peerDependencies dependencyName newVersion }

/-- A computed version change (old and new version strings). -/
structure VersionChange where
  old : String
  new : String
deriving DecidableEq, Repr

/-- One iteration of the inner loop of
VersionManager.updateDependencyVersions (src/core/version.ts:222-248): look
up the first truthy specifier for the changed package; skip the whole
package when it is a special workspace wildcard; otherwise rewrite all three
maps via updatePackageDependency. -/
def updateDependencyStep (cv : String × VersionChange) (pkg : PackageInfo) : PackageInfo :=
  match lookupSpecifier pkg cv.1 with
  | none => pkg
  | some dependencyVersion =>
      if isSpecialWorkspaceVersion dependencyVersion then pkg
      else updatePackageDependency pkg cv.1 cv.2.new

/-- All version changes applied to one package, in change order. -/
def applyChangesToPackage (versionChanges : List (String × VersionChange))
    (pkg : PackageInfo) : PackageInfo :=
  versionChanges.foldl (fun p cv => updateDependencyStep cv p) pkg

/-- VersionManager.updateDependencyVersions (src/core/version.ts:222-248):
every package has each version change applied to it. -/
def updateDependencyVersions (packages : List PackageInfo)
    (versionChanges : List (String × VersionChange)) : List PackageInfo :=
  packages.map (applyChangesToPackage versionChanges)

/- ===================== src/commands/update.ts ===================== -/

/-- Lookup in the newCommits map (a JavaScript Map keyed by package name). -/
def commitsLookup (m : List (String × List CommitInfo)) (k : String) :
    Option (List CommitInfo) :=
  (m.find? (fun e => e.1 = k)).map (fun e => e.2)

/-- The loop body of UpdateCommand.createUpdateStrategies
(src/commands/update.ts:225-256): a direct target with new commits gets a
calculated bump, a non-target gets the explicit-or-patch bump, and a direct
target without commits is skipped. -/
def strategyFor (packages : List PackageInfo) (targetPackages : List String)
    (newCommits : List (String × List CommitInfo)) (bumpType : Option BumpType)
    (packageName : String) : Option VersionUpdateStrategy :=
  match packages.find? (fun p => p.name = packageName) with
  | none => none
  | some pkg =>
      let commits := (commitsLookup newCommits packageName).getD []
      let isDirectTarget := targetPackages.contains packageName
      if isDirectTarget && !commits.isEmpty then
        some { type := calculateVersionBump pkg.version (commits.map (fun c => c.message)) bumpType
               package := packageName
               reason := "直接更新" }
      else if !isDirectTarget then
        some { type := bumpType.getD BumpType.patch
               package := packageName
               reason := "依赖更新" }
      else none

/-- UpdateCommand.createUpdateStrategies (src/commands/update.ts:210-259). -/
def createUpdateStrategies (graph : DependencyGraph) (packages : List PackageInfo)
    (targetPackages : List String) (newCommits : List (String × List CommitInfo))
    (bumpType : Option BumpType) : List VersionUpdateStrategy :=
  (getPackagesToUpdate graph targetPackages).filterMap
    (strategyFor packages targetPackages newCommits bumpType)

/-- The validation branch of UpdateCommand.determineTargetPackages
(src/commands/update.ts:152-164): keep the requested names that resolve to a
known package, warn about and drop the rest. -/
def validateTargetPackages (packages : List PackageInfo) (requested : List String) :
    List String :=
  requested.filter (fun packageName => (packageMapGet packages packageName).isSome)

/- ===================== src/core/cache.ts ===================== -/

/-- The persisted cache state (src/types: CacheData); the timestamp is an
epoch-milliseconds integer, as produced by Date.getTime. -/
structure CacheData where
  lastCommitHash : String
  lastUpdateTime : Int
  packageCommits : List (String × String)
deriving DecidableEq, Repr

/-- The record returned by CacheManager.getCacheStatus. -/
structure CacheStatus where
  cacheExists : Bool
  valid : Bool
  lastUpdateTime : Option Int
  packageCount : Option Nat
deriving DecidableEq, Repr

/-- Seven days in milliseconds (src/core/cache.ts:201). -/
def cacheMaxAge : Int := 7 * 24 * 60 * 60 * 1000

/-- CacheManager.validateCache (src/core/cache.ts:192-204): false when the
cache cannot be read, else true exactly when the cache age is under 7 days.
`cache` is the result of readCache (none = absent or unreadable), `now` the
current time. -/
def validateCache (cache : Option CacheData) (now : Int) : Bool :=
  match cache with
  | none => false
  | some c => now - c.lastUpdateTime < cacheMaxAge

/-- CacheManager.getCacheStatus (src/core/cache.ts:209-229). -/
def getCacheStatus (cache : Option CacheData) (now : Int) : CacheStatus :=
  match cache with
  | none => ⟨false, false, none, none⟩
  | some c => ⟨true, validateCache (some c) now, some c.lastUpdateTime, some c.packageCommits.length⟩

/-- CacheManager.batchUpdatePackageCommits (src/core/cache.ts:234-245): read
the cache (empty default when absent), Object.assign the updates over the
package-commit map, refresh the timestamp, write back.  The written cache is
returned. -/
def batchUpdatePackageCommits (cache : Option CacheData)
    (updates : List (String × String)) (now : Int) : CacheData :=
  let c := cache.getD ⟨"", now, []⟩
  { c with packageCommits := objectAssign c.packageCommits updates, lastUpdateTime := now }

/- ===================== traversal lemmas ===================== -/

/-- The traversal only ever appends to the visited list. -/
theorem expandDfs_extends (g : DependencyGraph) (stack visited : List String) :
    ∃ ext, expandDfs g stack visited = visited ++ ext := by
  induction stack, visited using expandDfs.induct g with
  | case1 visited => exact ⟨[], by rw [expandDfs_nil, List.append_nil]⟩
  | case2 p rest visited h ih =>
      obtain ⟨ext, hext⟩ := ih
      exact ⟨ext, by rw [expandDfs_cons, if_pos h, hext]⟩
  | case3 p rest visited h ih =>
      obtain ⟨ext, hext⟩ := ih
      exact ⟨p :: ext, by rw [expandDfs_cons, if_neg h, hext]; simp⟩

/-- Everything on the stack or already visited ends up in the result. -/
theorem mem_expandDfs (g : DependencyGraph) (stack visited : List String) :
    ∀ x, x ∈ stack ∨ x ∈ visited → x ∈ expandDfs g stack visited := by
  induction stack, visited using expandDfs.induct g with
  | case1 visited =>
      intro x hx
      rw [expandDfs_nil]
      exact hx.resolve_left (fun h => absurd h (List.not_mem_nil x))
  | case2 p rest visited h ih =>
      intro x hx
      rw [expandDfs_cons, if_pos h]
      apply ih
      rcases hx with hx | hx
      · rcases List.mem_cons.mp hx with rfl | hx
        · exact Or.inr h
        · exact Or.inl hx
      · exact Or.inr hx
  | case3 p rest visited h ih =>
      intro x hx
      rw [expandDfs_cons, if_neg h]
      apply ih
      rcases hx with hx | hx
      · rcases List.mem_cons.mp hx with rfl | hx
        · exact Or.inr (by simp)
        · exact Or.inl (List.mem_append_right _ hx)
      · exact Or.inr (List.mem_append_left _ hx)

/-- Closure invariant: if every visited package has all its dependents in the
visited set or on the stack, the final result is closed under dependents. -/
theorem expandDfs_closed (g : DependencyGraph) (stack visited : List String)
    (hinv : ∀ q, q ∈ visited → ∀ d, d ∈ getDependentPackages g q → d ∈ visited ∨ d ∈ stack) :
    ∀ q, q ∈ expandDfs g stack visited → ∀ d, d ∈ getDependentPackages g q →
      d ∈ expandDfs g stack visited := by
  induction stack, visited using expandDfs.induct g with
  | case1 visited =>
      rw [expandDfs_nil]
      intro q hq d hd
      exact (hinv q hq d hd).resolve_right (fun h => absurd h (List.not_mem_nil d))
  | case2 p rest visited h ih =>
      rw [expandDfs_cons, if_pos h]
      apply ih
      intro q hq d hd
      rcases hinv q hq d hd with hv | hs
      · exact Or.inl hv
      · rcases List.mem_cons.mp hs with rfl | hs
        · exact Or.inl h
        · exact Or.inr hs
  | case3 p rest visited h ih =>
      rw [expandDfs_cons, if_neg h]
      apply ih
      intro q hq d hd
      rcases List.mem_append.mp hq with hq | hq
      · rcases hinv q hq d hd with hv | hs
        · exact Or.inl (List.mem_append_left _ hv)
        · rcases List.mem_cons.mp hs with rfl | hs
          · exact Or.inl (by simp)
          · exact Or.inr (List.mem_append_right _ hs)
      · have hq' : q = p := by simpa using hq
        subst hq'
        exact Or.inr (List.mem_append_left _ hd)

/-- The result stays inside any dependent-closed superset of the stack and
the visited set. -/
theorem expandDfs_bounded (g : DependencyGraph) (T : List String)
    (hT : ∀ q, q ∈ T → ∀ d, d ∈ getDependentPackages g q → d ∈ T) :
    ∀ stack visited, (∀ x, x ∈ stack → x ∈ T) → (∀ x, x ∈ visited → x ∈ T) →
      ∀ x, x ∈ expandDfs g stack visited → x ∈ T := by
  intro stack visited
  induction stack, visited using expandDfs.induct g with
  | case1 visited =>
      intro _ hv x hx
      rw [expandDfs_nil] at hx
      exact hv x hx
  | case2 p rest visited h ih =>
      intro hs hv x hx
      rw [expandDfs_cons, if_pos h] at hx
      exact ih (fun y hy => hs y (List.mem_cons_of_mem _ hy)) hv x hx
  | case3 p rest visited h ih =>
      intro hs hv x hx
      rw [expandDfs_cons, if_neg h] at hx
      have hpT : p ∈ T := hs p (List.mem_cons_self _ _)
      apply ih _ _ x hx
      · intro y hy
        rcases List.mem_append.mp hy with hy | hy
        · exact hT p hpT y hy
        · exact hs y (List.mem_cons_of_mem _ hy)
      · intro y hy
        rcases List.mem_append.mp hy with hy | hy
        · exact hv y hy
        · have : y = p := by simpa using hy
          exact this ▸ hpT

/-- Each package is recorded at most once: the result list has no
duplicates whenever the initial visited list has none. -/
theorem expandDfs_nodup (g : DependencyGraph) (stack visited : List String)
    (h : visited.Nodup) : (expandDfs g stack visited).Nodup := by
  induction stack, visited using expandDfs.induct g with
  | case1 visited => rwa [expandDfs_nil]
  | case2 p rest visited hmem ih =>
      rw [expandDfs_cons, if_pos hmem]
      exact ih h
  | case3 p rest visited hmem ih =>
      rw [expandDfs_cons, if_neg hmem]
      apply ih
      simp only [List.nodup_append, List.nodup_cons, List.nodup_nil]
      exact ⟨h, ⟨by simp, trivial⟩, by
        intro a ha hb
        simp only [List.mem_singleton] at hb
        exact hmem (hb ▸ ha)⟩

/-- Processing a concatenated worklist equals processing the second part in
the state left by the first. -/
theorem expandDfs_append (g : DependencyGraph) (s₁ s₂ visited : List String) :
    expandDfs g (s₁ ++ s₂) visited = expandDfs g s₂ (expandDfs g s₁ visited) := by
  induction s₁, visited using expandDfs.induct g with
  | case1 visited => rw [List.nil_append, expandDfs_nil]
  | case2 p rest visited h ih =>
      rw [List.cons_append, expandDfs_cons, if_pos h, expandDfs_cons, if_pos h, ih]
  | case3 p rest visited h ih =>
      rw [List.cons_append, expandDfs_cons, if_neg h, expandDfs_cons, if_neg h,
        ← List.append_assoc, ih]

/-- Membership in getDependentPackages: exactly the graph entries whose
dependency list mentions the package. -/
theorem mem_getDependentPackages (g : DependencyGraph) (p q : String) :
    q ∈ getDependentPackages g p ↔ ∃ ds, (q, ds) ∈ g ∧ p ∈ ds := by
  unfold getDependentPackages
  simp only [List.mem_map, List.mem_filter]
  constructor
  · rintro ⟨e, ⟨he, hc⟩, rfl⟩
    exact ⟨e.2, he, by simpa using hc⟩
  · rintro ⟨ds, hg, hp⟩
    exact ⟨(q, ds), ⟨hg, by simpa using hp⟩, rfl⟩

/-- A strategy list whose entries are produced from distinct names carries
distinct package names: the projected name list is a sublist of the input. -/
theorem filterMap_package_sublist (f : String → Option VersionUpdateStrategy)
    (hf : ∀ a s, f a = some s → s.package = a) :
    ∀ l : List String, ((l.filterMap f).map (fun s => s.package)).Sublist l := by
  intro l
  induction l with
  | nil => simp
  | cons a l ih =>
      rw [List.filterMap_cons]
      cases hfa : f a with
      | none => exact List.Sublist.cons a ih
      | some s =>
          rw [List.map_cons, hf a s hfa]
          exact List.Sublist.cons₂ a ih

/- ===================== claim theorems ===================== -/

/-- C2: for every dependency graph and direct-target set S,
getPackagesToUpdate(S) contains S, is closed under the dependent relation
(every graph entry whose dependency list contains a member of the result is
itself in the result), and processes each package at most once (the result
has no duplicate names).  Totality of the Lean function — proved by the
well-founded measure on the visited set — is the termination claim; the last
conjunct evaluates the traversal on a two-cycle concretely. -/
theorem getPackagesToUpdate_superset_closed_nodup (g : DependencyGraph) (S : List String) :
    (∀ p, p ∈ S → p ∈ getPackagesToUpdate g S)
    ∧ (∀ q ds, (q, ds) ∈ g → (∃ d, d ∈ ds ∧ d ∈ getPackagesToUpdate g S) →
        q ∈ getPackagesToUpdate g S)
    ∧ (getPackagesToUpdate g S).Nodup
    ∧ getPackagesToUpdate [("a", ["b"]), ("b", ["a"])] ["a"] = ["a", "b"] := by
  refine ⟨?_, ?_, ?_, ?_⟩
  · intro p hp
    exact mem_expandDfs g S [] p (Or.inl hp)
  · rintro q ds hg ⟨d, hd, hdr⟩
    have hclosed := expandDfs_closed g S []
      (fun q hq => absurd hq (List.not_mem_nil q))
    exact hclosed d hdr q ((mem_getDependentPackages g d q).mpr ⟨ds, hg, hd⟩)
  · exact expandDfs_nodup g S [] List.nodup_nil
  · simp +decide [getPackagesToUpdate, expandDfs_cons, expandDfs_nil, getDependentPackages]

/-- Witness for C2 on the concrete three-package scenario: the target b is in
the result, and its dependent a is forced in by closure. -/
theorem getPackagesToUpdate_superset_closed_nodup_witness :
    "b" ∈ getPackagesToUpdate [("a", ["b"]), ("b", []), ("c", ["b"])] ["b"]
    ∧ "a" ∈ getPackagesToUpdate [("a", ["b"]), ("b", []), ("c", ["b"])] ["b"] := by
  refine ⟨?_, ?_⟩
  · exact (getPackagesToUpdate_superset_closed_nodup
      [("a", ["b"]), ("b", []), ("c", ["b"])] ["b"]).1 "b" (by simp)
  · exact (getPackagesToUpdate_superset_closed_nodup
      [("a", ["b"]), ("b", []), ("c", ["b"])] ["b"]).2.1 "a" ["b"] (by simp)
      ⟨"b", by simp, (getPackagesToUpdate_superset_closed_nodup
        [("a", ["b"]), ("b", []), ("c", ["b"])] ["b"]).1 "b" (by simp)⟩

/-- C6: expanding an already-expanded set changes nothing (idempotence, as
sets of names), and any set that is already closed under the dependent
relation is a fixed point of expansion up to set equality. -/
theorem getPackagesToUpdate_idempotent (g : DependencyGraph) (S : List String) :
    (getPackagesToUpdate g (getPackagesToUpdate g S)).toFinset =
      (getPackagesToUpdate g S).toFinset
    ∧ ((∀ q, q ∈ S → ∀ d, d ∈ getDependentPackages g q → d ∈ S) →
        (getPackagesToUpdate g S).toFinset = S.toFinset) := by
  constructor
  · apply Finset.ext
    intro x
    simp only [List.mem_toFinset]
    constructor
    · intro hx
      have hclosed := expandDfs_closed g S []
        (fun q hq => absurd hq (List.not_mem_nil q))
      exact expandDfs_bounded g (getPackagesToUpdate g S)
        (fun q hq d hd => hclosed q hq d hd)
        (getPackagesToUpdate g S) [] (fun y hy => hy)
        (fun y hy => absurd hy (List.not_mem_nil y)) x hx
    · intro hx
      exact mem_expandDfs g (getPackagesToUpdate g S) [] x (Or.inl hx)
  · intro hS
    apply Finset.ext
    intro x
    simp only [List.mem_toFinset]
    constructor
    · intro hx
      exact expandDfs_bounded g S hS S [] (fun y hy => hy)
        (fun y hy => absurd hy (List.not_mem_nil y)) x hx
    · intro hx
      exact mem_expandDfs g S [] x (Or.inl hx)

/-- Witness for C6: a concrete closed set is a fixed point of expansion. -/
theorem getPackagesToUpdate_idempotent_witness :
    (getPackagesToUpdate [("a", ["b"])] ["b", "a"]).toFinset =
      (["b", "a"] : List String).toFinset :=
  (getPackagesToUpdate_idempotent [("a", ["b"])] ["b", "a"]).2 (by
    intro q hq d hd
    fin_cases hq <;> simp_all [getDependentPackages])

/-- C9: a plan contains at most one strategy per package name — both for
VersionManager.createUpdatePlan and for UpdateCommand.createUpdateStrategies,
for all packages, targets, commits and bump-type inputs: the projected name
list of either plan has no duplicates. -/
theorem updatePlan_unique_packages (g : DependencyGraph) (packages : List PackageInfo)
    (targets : List String) (newCommits : List (String × List CommitInfo))
    (bt : Option BumpType) :
    ((createUpdatePlan g packages targets bt).map (fun s => s.package)).Nodup
    ∧ ((createUpdateStrategies g packages targets newCommits bt).map
        (fun s => s.package)).Nodup := by
  have hnodup : (getPackagesToUpdate g targets).Nodup :=
    expandDfs_nodup g targets [] List.nodup_nil
  constructor
  · apply List.Nodup.sublist _ hnodup
    apply filterMap_package_sublist
    intro a s h
    unfold planStrategyFor at h
    rcases hm : packageMapGet packages a with _ | pkg
    · simp only [hm] at h
      exact absurd h (by simp)
    · simp only [hm] at h
      rw [← Option.some.inj h]
  · apply List.Nodup.sublist _ hnodup
    apply filterMap_package_sublist
    intro a s h
    unfold strategyFor at h
    rcases hm : packages.find? (fun p => p.name = a) with _ | pkg
    · simp only [hm] at h
      exact absurd h (by simp)
    · simp only [hm] at h
      by_cases h1 : (targets.contains a && !((commitsLookup newCommits a).getD []).isEmpty) = true
      · rw [if_pos h1] at h
        rw [← Option.some.inj h]
      · rw [if_neg h1] at h
        by_cases h2 : (!targets.contains a) = true
        · rw [if_pos h2] at h
          rw [← Option.some.inj h]
        · rw [if_neg h2] at h
          exact absurd h (by simp)

/-- A package name referenced by no dependency list has no dependents. -/
theorem getDependentPackages_eq_nil (g : DependencyGraph) (u : String)
    (href : ∀ e, e ∈ g → u ∉ e.2) : getDependentPackages g u = [] := by
  unfold getDependentPackages
  rw [List.filter_eq_nil_iff.mpr, List.map_nil]
  intro e he hc
  exact href e he (List.elem_iff.mp hc)

/-- Expanding after appending one name processes that name last. -/
theorem getPackagesToUpdate_append_one (g : DependencyGraph) (S : List String) (u : String)
    (href : ∀ e, e ∈ g → u ∉ e.2) :
    getPackagesToUpdate g (S ++ [u]) =
      if u ∈ getPackagesToUpdate g S then getPackagesToUpdate g S
      else getPackagesToUpdate g S ++ [u] := by
  unfold getPackagesToUpdate
  rw [expandDfs_append, expandDfs_cons]
  split
  · rw [expandDfs_nil]
  · rw [getDependentPackages_eq_nil g u href, List.nil_append, expandDfs_nil]

/-- A name found in the package map names the found record. -/
theorem packageMapGet_name (packages : List PackageInfo) (x : String) (pkg : PackageInfo)
    (h : packageMapGet packages x = some pkg) : pkg.name = x ∧ pkg ∈ packages := by
  unfold packageMapGet at h
  have h1 := List.find?_some h
  have h2 := List.mem_of_find?_eq_some h
  exact ⟨by simpa using h1, List.mem_reverse.mp h2⟩

/-- A name carried by no package record is absent from the package map. -/
theorem packageMapGet_eq_none (packages : List PackageInfo) (u : String)
    (h : ∀ p, p ∈ packages → p.name ≠ u) : packageMapGet packages u = none := by
  unfold packageMapGet
  apply List.find?_eq_none.mpr
  intro p hp
  simpa using h p (List.mem_reverse.mp hp)

/-- C7 counterexample: an unknown direct-target name is NOT dropped by the
propagation stage — it appears in getPackagesToUpdate's result, so it does
affect that result (expansion of ["ghost"] differs from expansion of []). -/
theorem getPackagesToUpdate_unknown_counterexample :
    getPackagesToUpdate [("a", ["b"])] ["ghost"] = ["ghost"]
    ∧ getPackagesToUpdate [("a", ["b"])] ([] : List String) = []
    ∧ "ghost" ∈ getPackagesToUpdate [("a", ["b"])] ["ghost"] := by
  refine ⟨?_, ?_, ?_⟩ <;>
    simp +decide [getPackagesToUpdate, expandDfs_cons, expandDfs_nil, getDependentPackages]

/-- C7 amended: an unknown target name u (resolving to no package record and
referenced by no dependency list) flows through expansion without failure,
contributing exactly itself and nothing else; plan creation then skips it, so
the produced strategies are unchanged; and target-determination validation
keeps only names that resolve to a known package, dropping unknown ones. -/
theorem getPackagesToUpdate_unknown_name (g : DependencyGraph) (S : List String)
    (u : String) (href : ∀ e, e ∈ g → u ∉ e.2) :
    (∀ x, x ∈ getPackagesToUpdate g (S ++ [u]) ↔ x ∈ getPackagesToUpdate g S ∨ x = u)
    ∧ (∀ packages bt, (∀ p, p ∈ packages → p.name ≠ u) →
        createUpdatePlan g packages (S ++ [u]) bt = createUpdatePlan g packages S bt)
    ∧ (∀ packages requested n, n ∈ validateTargetPackages packages requested →
        (packageMapGet packages n).isSome = true)
    ∧ (∀ packages requested n, n ∈ requested → packageMapGet packages n = none →
        n ∉ validateTargetPackages packages requested) := by
  refine ⟨?_, ?_, ?_, ?_⟩
  · intro x
    rw [getPackagesToUpdate_append_one g S u href]
    split
    · constructor
      · exact Or.inl
      · rintro (hx | rfl)
        · exact hx
        · assumption
    · simp
  · intro packages bt hnames
    unfold createUpdatePlan
    rw [getPackagesToUpdate_append_one g S u href]
    have hcong : ∀ x ∈ getPackagesToUpdate g S,
        planStrategyFor packages (S ++ [u]) bt x = planStrategyFor packages S bt x := by
      intro x _
      unfold planStrategyFor
      rcases hm : packageMapGet packages x with _ | pkg
      · rfl
      · have hx : x ≠ u := by
          obtain ⟨hn, hmem⟩ := packageMapGet_name packages x pkg hm
          exact hn ▸ hnames pkg hmem
        have hct : (S ++ [u]).contains x = S.contains x := by
          cases hc : S.contains x with
          | true =>
              exact List.elem_iff.mpr (List.mem_append_left _ (List.elem_iff.mp hc))
          | false =>
              apply Bool.eq_false_iff.mpr
              intro habs
              rcases List.mem_append.mp (List.elem_iff.mp habs) with h | h
              · exact Bool.eq_false_iff.mp hc (List.elem_iff.mpr h)
              · exact hx (by simpa using h)
        rw [hct]
    split
    · exact List.filterMap_congr hcong
    · rw [List.filterMap_append]
      have hu : List.filterMap (planStrategyFor packages (S ++ [u]) bt) [u] = [] := by
        rw [List.filterMap_cons]
        unfold planStrategyFor
        rw [packageMapGet_eq_none packages u hnames]
        rfl
      rw [hu, List.append_nil]
      exact List.filterMap_congr hcong
  · intro packages requested n hn
    have := List.mem_filter.mp hn
    exact this.2
  · intro packages requested n _ hnone hmem
    have := List.mem_filter.mp hmem
    rw [hnone] at this
    simpa using this.2

/-- Witness for C7's amended theorem at a concrete graph: expanding with the
unknown name ghost appended adds exactly ghost, the plan is unchanged, and
validation drops ghost. -/
theorem getPackagesToUpdate_unknown_name_witness :
    ("a" ∈ getPackagesToUpdate [("a", ["b"])] (["b"] ++ ["ghost"]) ↔
      "a" ∈ getPackagesToUpdate [("a", ["b"])] ["b"] ∨ "a" = "ghost")
    ∧ createUpdatePlan [("a", ["b"])]
        [⟨"a", "1.0.0", "packages/a", [("b", "1.0.0")], [], []⟩,
         ⟨"b", "1.0.0", "packages/b", [], [], []⟩] (["b"] ++ ["ghost"]) none =
      createUpdatePlan [("a", ["b"])]
        [⟨"a", "1.0.0", "packages/a", [("b", "1.0.0")], [], []⟩,
         ⟨"b", "1.0.0", "packages/b", [], [], []⟩] ["b"] none
    ∧ "ghost" ∉ validateTargetPackages
        [⟨"a", "1.0.0", "packages/a", [("b", "1.0.0")], [], []⟩,
         ⟨"b", "1.0.0", "packages/b", [], [], []⟩] ["b", "ghost"] := by
  have h := getPackagesToUpdate_unknown_name [("a", ["b"])] ["b"] "ghost"
    (by intro e he; rw [List.mem_singleton] at he; subst he; simp)
  refine ⟨h.1 "a", ?_, ?_⟩
  · exact h.2.1 _ none (by intro p hp; fin_cases hp <;> simp)
  · exact h.2.2.2 _ ["b", "ghost"] "ghost" (by simp) (by rfl)

/-- C5: calculateVersionBump obeys the claimed precedence: an explicit
override is returned unconditionally; otherwise any message containing
BREAKING CHANGE, containing `!:`, or matching a conventional-commit header
with a `!` before the colon gives major; otherwise any message starting with
`feat:` or `feat(` gives minor; otherwise patch.  The last two conjuncts are
the claim's concrete scenarios. -/
theorem calculateVersionBump_precedence :
    (∀ cur msgs b, calculateVersionBump cur msgs (some b) = b)
    ∧ (∀ cur msgs, calculateVersionBump cur msgs none = BumpType.major ↔
        ∃ msg, msg ∈ msgs ∧ (jsIncludes msg "BREAKING CHANGE" || jsIncludes msg "!:" ||
          matchesBangHeader msg) = true)
    ∧ (∀ cur msgs, (∀ msg, msg ∈ msgs → msgHasBreaking msg = false) →
        (calculateVersionBump cur msgs none = BumpType.minor ↔
          ∃ msg, msg ∈ msgs ∧ (jsStartsWith msg "feat:" || jsStartsWith msg "feat(") = true))
    ∧ (∀ cur msgs, (∀ msg, msg ∈ msgs → msgHasBreaking msg = false) →
        (∀ msg, msg ∈ msgs → msgHasFeature msg = false) →
        calculateVersionBump cur msgs none = BumpType.patch)
    ∧ calculateVersionBump "1.0.0" ["fix: patch bug", "feat: add x"] none = BumpType.minor
    ∧ calculateVersionBump "1.0.0" ["feat!: remove legacy api"] none = BumpType.major := by
  refine ⟨fun _ _ _ => rfl, ?_, ?_, ?_, by decide, by decide⟩
  · intro cur msgs
    unfold calculateVersionBump
    by_cases hb : msgs.any msgHasBreaking = true
    · rw [if_pos hb]
      simp only [true_iff]
      obtain ⟨msg, hmem, hmsg⟩ := List.any_eq_true.mp hb
      exact ⟨msg, hmem, hmsg⟩
    · rw [if_neg hb]
      constructor
      · intro h
        by_cases hf : msgs.any msgHasFeature = true
        · rw [if_pos hf] at h
          exact absurd h (by decide)
        · rw [if_neg hf] at h
          exact absurd h (by decide)
      · intro ⟨msg, hmem, hmsg⟩
        exact absurd (List.any_eq_true.mpr ⟨msg, hmem, hmsg⟩) hb
  · intro cur msgs hnb
    unfold calculateVersionBump
    have hb : msgs.any msgHasBreaking = false :=
      List.any_eq_false.mpr (fun msg hmem => by rw [hnb msg hmem]; decide)
    rw [if_neg (by rw [hb]; decide)]
    by_cases hf : msgs.any msgHasFeature = true
    · rw [if_pos hf]
      simp only [true_iff]
      obtain ⟨msg, hmem, hmsg⟩ := List.any_eq_true.mp hf
      exact ⟨msg, hmem, hmsg⟩
    · rw [if_neg hf]
      constructor
      · intro h
        exact absurd h (by decide)
      · intro ⟨msg, hmem, hmsg⟩
        exact absurd (List.any_eq_true.mpr ⟨msg, hmem, hmsg⟩) hf
  · intro cur msgs hnb hnf
    unfold calculateVersionBump
    rw [if_neg, if_neg]
    · intro h
      obtain ⟨msg, hmem, hmsg⟩ := List.any_eq_true.mp h
      rw [hnf msg hmem] at hmsg
      exact absurd hmsg (by decide)
    · intro h
      obtain ⟨msg, hmem, hmsg⟩ := List.any_eq_true.mp h
      rw [hnb msg hmem] at hmsg
      exact absurd hmsg (by decide)

/-- Witness for C5: both fallback branches fire on concrete messages. -/
theorem calculateVersionBump_precedence_witness :
    calculateVersionBump "1.0.0" ["fix: patch bug"] none = BumpType.patch
    ∧ calculateVersionBump "1.0.0" ["docs: readme", "feat(ui): button"] none = BumpType.minor := by
  constructor
  · exact calculateVersionBump_precedence.2.2.2.1 "1.0.0" ["fix: patch bug"]
      (by decide) (by decide)
  · exact (calculateVersionBump_precedence.2.2.1 "1.0.0" ["docs: readme", "feat(ui): button"]
      (by decide)).mpr ⟨"feat(ui): button", by decide⟩

/-- C8: getCacheStatus is (exists false, valid false) when the cache cannot
be read; an existing cache is valid exactly when its age is under 7 days;
and the cache written by a batch update reports exists with the batch
call's fresh timestamp. -/
theorem getCacheStatus_spec :
    (∀ now, getCacheStatus none now = ⟨false, false, none, none⟩)
    ∧ (∀ c now, (getCacheStatus (some c) now).cacheExists = true
        ∧ ((getCacheStatus (some c) now).valid = true ↔
            now - c.lastUpdateTime < cacheMaxAge))
    ∧ (∀ cache updates now later,
        (getCacheStatus (some (batchUpdatePackageCommits cache updates now))
          later).cacheExists = true
        ∧ (getCacheStatus (some (batchUpdatePackageCommits cache updates now))
            later).lastUpdateTime = some now) := by
  refine ⟨fun _ => rfl, ?_, ?_⟩
  · intro c now
    refine ⟨rfl, ?_⟩
    unfold getCacheStatus validateCache
    exact decide_eq_true_iff
  · intro cache updates now later
    exact ⟨rfl, rfl⟩

/-- Lookup after a single property set. -/
theorem mapLookup_recordSet (m : List (String × String)) (k v k' : String) :
    mapLookup (recordSet m k v) k' = if k = k' then some v else mapLookup m k' := by
  induction m with
  | nil => simp [recordSet, mapLookup]
  | cons kv rest ih =>
      obtain ⟨k₀, v₀⟩ := kv
      by_cases h0 : k₀ = k
      · subst h0
        by_cases h1 : k₀ = k'
        · subst h1
          simp [recordSet, mapLookup]
        · simp [recordSet, mapLookup, h1]
      · have h0s : ¬k = k₀ := fun h => h0 h.symm
        by_cases h1 : k₀ = k'
        · subst h1
          simp [recordSet, mapLookup, h0, h0s]
        · simp [recordSet, mapLookup, h0, h1, ih]

/-- Object.assign leaves keys outside the update set untouched. -/
theorem mapLookup_objectAssign_frame (updates : List (String × String)) :
    ∀ (t : List (String × String)) (k : String), (∀ kv, kv ∈ updates → kv.1 ≠ k) →
      mapLookup (objectAssign t updates) k = mapLookup t k := by
  induction updates with
  | nil => intro t k _; rfl
  | cons kv rest ih =>
      intro t k hk
      unfold objectAssign at ih ⊢
      rw [List.foldl_cons, ih _ k (fun kv' h => hk kv' (List.mem_cons_of_mem _ h)),
        mapLookup_recordSet, if_neg (hk kv (List.mem_cons_self _ _))]

/-- Object.assign sets every key of the update set (unique update keys). -/
theorem mapLookup_objectAssign_update (updates : List (String × String)) :
    ∀ (t : List (String × String)) (k v : String),
      (updates.map Prod.fst).Nodup → (k, v) ∈ updates →
      mapLookup (objectAssign t updates) k = some v := by
  induction updates with
  | nil => intro t k v _ h; exact absurd h (List.not_mem_nil _)
  | cons kv rest ih =>
      intro t k v hnodup hmem
      have hnodup' : (rest.map Prod.fst).Nodup := (List.nodup_cons.mp hnodup).2
      unfold objectAssign at ih ⊢
      rw [List.foldl_cons]
      rcases List.mem_cons.mp hmem with rfl | hmem'
      · have hrest : ∀ kv', kv' ∈ rest → kv'.1 ≠ k := by
          intro kv' h' habs
          rw [List.map_cons] at hnodup
          have hfst : kv'.1 ∈ rest.map Prod.fst := List.mem_map_of_mem Prod.fst h'
          rw [habs] at hfst
          exact (List.nodup_cons.mp hnodup).1 hfst
        have := mapLookup_objectAssign_frame rest (recordSet t k v) k hrest
        unfold objectAssign at this
        rw [this, mapLookup_recordSet, if_pos rfl]
      · exact ih _ k v hnodup' hmem'

/-- C10: batchUpdatePackageCommits merges rather than replaces: a package
name that is not an update key keeps its persisted hash entry, every update
key is set to its new hash, and the timestamp is refreshed to the call
time. -/
theorem batchUpdatePackageCommits_merges (cache : Option CacheData)
    (updates : List (String × String)) (now : Int) :
    (∀ c k, cache = some c → (∀ kv, kv ∈ updates → kv.1 ≠ k) →
        mapLookup (batchUpdatePackageCommits cache updates now).packageCommits k =
          mapLookup c.packageCommits k)
    ∧ (∀ k v, (updates.map Prod.fst).Nodup → (k, v) ∈ updates →
        mapLookup (batchUpdatePackageCommits cache updates now).packageCommits k = some v)
    ∧ (batchUpdatePackageCommits cache updates now).lastUpdateTime = now := by
  refine ⟨?_, ?_, rfl⟩
  · intro c k hc hk
    subst hc
    unfold batchUpdatePackageCommits
    exact mapLookup_objectAssign_frame updates _ k hk
  · intro k v hnodup hmem
    unfold batchUpdatePackageCommits
    exact mapLookup_objectAssign_update updates _ k v hnodup hmem

/-- Witness for C10: merging one update leaves the other entry unchanged,
sets the updated entry, and refreshes the timestamp. -/
theorem batchUpdatePackageCommits_merges_witness :
    mapLookup (batchUpdatePackageCommits
      (some ⟨"h0", 0, [("a", "h1"), ("b", "h2")]⟩) [("b", "h3")] 50).packageCommits "a" =
      some "h1"
    ∧ mapLookup (batchUpdatePackageCommits
        (some ⟨"h0", 0, [("a", "h1"), ("b", "h2")]⟩) [("b", "h3")] 50).packageCommits "b" =
      some "h3"
    ∧ (batchUpdatePackageCommits
        (some ⟨"h0", 0, [("a", "h1"), ("b", "h2")]⟩) [("b", "h3")] 50).lastUpdateTime = 50 := by
  refine ⟨?_, ?_, ?_⟩
  · exact (batchUpdatePackageCommits_merges
      (some ⟨"h0", 0, [("a", "h1"), ("b", "h2")]⟩) [("b", "h3")] 50).1
      ⟨"h0", 0, [("a", "h1"), ("b", "h2")]⟩ "a" rfl (by decide)
  · exact (batchUpdatePackageCommits_merges
      (some ⟨"h0", 0, [("a", "h1"), ("b", "h2")]⟩) [("b", "h3")] 50).2.1
      "b" "h3" (by decide) (by decide)
  · exact (batchUpdatePackageCommits_merges
      (some ⟨"h0", 0, [("a", "h1"), ("b", "h2")]⟩) [("b", "h3")] 50).2.2

/-- A successful executeVersionUpdate implies a strict semver increase and
records exactly the new version. -/
theorem executeVersionUpdate_ok (pkg : PackageInfo) (newV : String) (out : PackageInfo)
    (h : executeVersionUpdate pkg newV = Except.ok out) :
    semverGtStr newV pkg.version = true ∧ out.version = newV := by
  rcases hn : parseSemver newV with _ | nv
  · exfalso
    simp [executeVersionUpdate, validateVersion, semverValidB, hn] at h
  · rcases ho : parseSemver pkg.version with _ | ov
    · exfalso
      simp [executeVersionUpdate, validateVersion, semverValidB, hn, ho] at h
    · by_cases hcomp : compareSemver nv ov = Ordering.gt
      · have hout : out.version = newV := by
          simp [executeVersionUpdate, validateVersion, semverValidB, hn, ho, hcomp] at h
          rw [← h]
        exact ⟨by simp [semverGtStr, hn, ho, hcomp], hout⟩
      · exfalso
        simp [executeVersionUpdate, validateVersion, semverValidB, hn, ho, hcomp] at h

/-- C3: a version change that executeVersionUpdate applies successfully is a
strict semver increase and nothing else; a candidate that is invalid or not
strictly greater makes it fail, producing no written record; every write
recorded by batchUpdateVersions strictly increases its package's version;
and a successful write at the head of a batch is kept verbatim whatever
happens in the rest of the batch (no rollback of earlier writes). -/
theorem executeVersionUpdate_monotone :
    (∀ pkg newV out, executeVersionUpdate pkg newV = Except.ok out →
        semverGtStr newV pkg.version = true ∧ out.version = newV)
    ∧ (∀ pkg newV, semverGtStr newV pkg.version = false →
        ∃ e, executeVersionUpdate pkg newV = Except.error e)
    ∧ (∀ pm ss w, w ∈ (batchUpdateVersions pm ss).1 → semverGtStr w.new w.old = true)
    ∧ (∀ pm (s : VersionUpdateStrategy) rest pkg newV out,
        packageMapGet pm s.package = some pkg →
        calculateNewVersion pkg.version s.type = Except.ok newV →
        executeVersionUpdate pkg newV = Except.ok out →
        (batchUpdateVersions pm (s :: rest)).1 =
          ⟨s.package, pkg.version, newV⟩ :: (batchUpdateVersions pm rest).1
        ∧ (batchUpdateVersions pm (s :: rest)).2 = (batchUpdateVersions pm rest).2) := by
  refine ⟨executeVersionUpdate_ok, ?_, ?_, ?_⟩
  · intro pkg newV h
    rcases hn : parseSemver newV with _ | nv
    · exact ⟨"无效的版本号: " ++ newV,
        by simp [executeVersionUpdate, validateVersion, semverValidB, hn]⟩
    · unfold semverGtStr at h
      rw [hn] at h
      rcases ho : parseSemver pkg.version with _ | ov
      · exact ⟨"Invalid Version: " ++ pkg.version,
          by simp [executeVersionUpdate, validateVersion, semverValidB, hn, ho]⟩
      · rw [ho] at h
        have hc : ¬compareSemver nv ov = Ordering.gt := by simpa using h
        exact ⟨"新版本号 " ++ newV ++ " 不能小于或等于当前版本 " ++ pkg.version,
          by simp [executeVersionUpdate, validateVersion, semverValidB, hn, ho, hc]⟩
  · intro pm ss
    induction ss with
    | nil =>
        intro w hw
        exact absurd hw (List.not_mem_nil w)
    | cons s rest ih =>
        intro w hw
        unfold batchUpdateVersions at hw
        rcases hm : packageMapGet pm s.package with _ | pkg
        · simp only [hm] at hw
          exact ih w hw
        · simp only [hm] at hw
          rcases hc : calculateNewVersion pkg.version s.type with e | newV
          · simp only [hc] at hw
            exact absurd hw (List.not_mem_nil w)
          · simp only [hc] at hw
            rcases he : executeVersionUpdate pkg newV with e | out
            · simp only [he] at hw
              exact absurd hw (List.not_mem_nil w)
            · simp only [he] at hw
              rcases List.mem_cons.mp hw with rfl | hw'
              · exact (executeVersionUpdate_ok pkg newV out he).1
              · exact ih w hw'
  · intro pm s rest pkg newV out hm hc he
    constructor <;> (conv_lhs => rw [batchUpdateVersions.eq_def]) <;>
      simp only [hm, hc, he]

/-- Witness for C3: a patch bump from 1.0.0 to 1.0.1 is accepted and is a
strict increase; applying 0.9.0 over 1.0.0 fails before any write. -/
theorem executeVersionUpdate_monotone_witness :
    semverGtStr "1.0.1" "1.0.0" = true
    ∧ (∃ e, executeVersionUpdate ⟨"a", "1.0.0", "packages/a", [], [], []⟩ "0.9.0" =
        Except.error e) :=
  ⟨(executeVersionUpdate_monotone.1 ⟨"a", "1.0.0", "packages/a", [], [], []⟩ "1.0.1"
      ⟨"a", "1.0.1", "packages/a", [], [], []⟩ (by rfl)).1,
   executeVersionUpdate_monotone.2.1 ⟨"a", "1.0.0", "packages/a", [], [], []⟩ "0.9.0"
     (by decide)⟩

/- ===================== dependency rewriting lemmas ===================== -/

/-- Selector for the three dependency maps of a package. -/
inductive DepMapKind where
  | runtime
  | dev
  | peer
deriving DecidableEq, Repr

/-- Project one of the three dependency maps. -/
def depMap : DepMapKind → PackageInfo → List (String × String)
  | DepMapKind.runtime, pkg => pkg.dependencies
  | DepMapKind.dev, pkg => pkg.devDependencies
  | DepMapKind.peer, pkg => pkg.peerDependencies

/-- The special workspace wildcards, spelled out. -/
theorem isSpecialWorkspaceVersion_cases (s : String)
    (h : isSpecialWorkspaceVersion s = true) :
    s = "workspace:*" ∨ s = "workspace:^" ∨ s = "workspace:~" := by
  unfold isSpecialWorkspaceVersion at h
  simpa [or_assoc] using h

/-- A workspace wildcard is kept untouched by the specifier rewrite. -/
theorem rewriteSpec_special (s newV : String) (h : isSpecialWorkspaceVersion s = true) :
    rewriteSpec s newV = s := by
  rcases isSpecialWorkspaceVersion_cases s h with rfl | rfl | rfl <;> rfl

/-- A workspace wildcard is non-empty. -/
theorem isSpecialWorkspaceVersion_ne_empty (s : String)
    (h : isSpecialWorkspaceVersion s = true) : s ≠ "" := by
  rcases isSpecialWorkspaceVersion_cases s h with rfl | rfl | rfl <;> decide

/-- The three-way rewrite, in the claim's phrasing: wildcards kept,
`workspace:` prefix preserved with the version part substituted, plain
specifiers replaced by the bare new version. -/
theorem rewriteSpec_eq_claim (s newV : String) :
    rewriteSpec s newV =
      (if isSpecialWorkspaceVersion s then s
       else if jsStartsWith s "workspace:" then "workspace:" ++ newV
       else newV) := by
  by_cases hs : isSpecialWorkspaceVersion s = true
  · rw [if_pos hs, rewriteSpec_special s newV hs]
  · rw [if_neg (by simpa using hs)]
    unfold rewriteSpec isWorkspaceDependency
    rw [if_neg]
    intro habs
    exact hs (Bool.and_elim_right habs)

/-- Rewriting one dependency leaves every other key of the map unchanged. -/
theorem mapLookup_rewriteDepMap_ne (deps : List (String × String)) (dep newV k : String)
    (hk : k ≠ dep) : mapLookup (rewriteDepMap deps dep newV) k = mapLookup deps k := by
  unfold rewriteDepMap
  rcases h : mapLookup deps dep with _ | cur
  · rfl
  · dsimp only
    by_cases hne : cur ≠ ""
    · rw [if_pos hne, mapLookup_recordSet, if_neg (fun hdk => hk hdk.symm)]
    · rw [if_neg hne]

/-- Rewriting one dependency turns its truthy specifier into the
rewritten specifier. -/
theorem mapLookup_rewriteDepMap_eq (deps : List (String × String)) (dep newV spec : String)
    (h : mapLookup deps dep = some spec) (hne : spec ≠ "") :
    mapLookup (rewriteDepMap deps dep newV) dep = some (rewriteSpec spec newV) := by
  unfold rewriteDepMap
  rw [h]
  dsimp only
  rw [if_pos hne, mapLookup_recordSet, if_pos rfl]

/-- updatePackageDependency acts on each dependency map by rewriteDepMap. -/
theorem depMap_updatePackageDependency (m : DepMapKind) (pkg : PackageInfo)
    (dep newV : String) :
    depMap m (updatePackageDependency pkg dep newV) = rewriteDepMap (depMap m pkg) dep newV := by
  cases m <;> rfl

/-- One change step never touches dependency entries for other packages. -/
theorem updateDependencyStep_frame (cv : String × VersionChange) (pkg : PackageInfo)
    (k : String) (hk : cv.1 ≠ k) (m : DepMapKind) :
    mapLookup (depMap m (updateDependencyStep cv pkg)) k = mapLookup (depMap m pkg) k := by
  unfold updateDependencyStep
  rcases hls : lookupSpecifier pkg cv.1 with _ | s
  · rfl
  · dsimp only
    by_cases hsp : isSpecialWorkspaceVersion s = true
    · rw [if_pos hsp]
    · rw [if_neg (by simpa using hsp), depMap_updatePackageDependency,
        mapLookup_rewriteDepMap_ne _ _ _ _ (fun h => hk h.symm)]

/-- One change step keeps every workspace-wildcard specifier byte-identical,
in every dependency map. -/
theorem updateDependencyStep_special (cv : String × VersionChange) (pkg : PackageInfo)
    (m : DepMapKind) (dep spec : String)
    (hl : mapLookup (depMap m pkg) dep = some spec)
    (hs : isSpecialWorkspaceVersion spec = true) :
    mapLookup (depMap m (updateDependencyStep cv pkg)) dep = some spec := by
  by_cases hk : cv.1 = dep
  · subst hk
    unfold updateDependencyStep
    rcases hls : lookupSpecifier pkg cv.1 with _ | s
    · exact hl
    · dsimp only
      by_cases hsp : isSpecialWorkspaceVersion s = true
      · rw [if_pos hsp]
        exact hl
      · rw [if_neg (by simpa using hsp), depMap_updatePackageDependency,
          mapLookup_rewriteDepMap_eq _ _ _ _ hl (isSpecialWorkspaceVersion_ne_empty spec hs),
          rewriteSpec_special _ _ hs]
  · rw [updateDependencyStep_frame cv pkg dep hk m]
    exact hl

/-- The effective specifier lookup only reads the three dependency maps. -/
theorem lookupSpecifier_frame (pkg pkg' : PackageInfo) (dep : String)
    (h : ∀ m, mapLookup (depMap m pkg') dep = mapLookup (depMap m pkg) dep) :
    lookupSpecifier pkg' dep = lookupSpecifier pkg dep := by
  unfold lookupSpecifier
  have h1 := h DepMapKind.runtime
  have h2 := h DepMapKind.dev
  have h3 := h DepMapKind.peer
  simp only [depMap] at h1 h2 h3
  rw [h1, h2, h3]

/-- Applying a change list whose keys avoid k leaves k's entries unchanged. -/
theorem applyChangesToPackage_frame (changes : List (String × VersionChange)) :
    ∀ (pkg : PackageInfo) (k : String), (∀ cv, cv ∈ changes → cv.1 ≠ k) →
      ∀ m, mapLookup (depMap m (applyChangesToPackage changes pkg)) k =
        mapLookup (depMap m pkg) k := by
  induction changes with
  | nil => intro pkg k _ m; rfl
  | cons cv rest ih =>
      intro pkg k hk m
      unfold applyChangesToPackage at ih ⊢
      rw [List.foldl_cons, ih _ k (fun cv' h => hk cv' (List.mem_cons_of_mem _ h)) m,
        updateDependencyStep_frame cv pkg k (hk cv (List.mem_cons_self _ _)) m]

/-- C4 clause 1, over the whole run: a workspace-wildcard specifier survives
every change application, in every dependency map. -/
theorem applyChangesToPackage_special (changes : List (String × VersionChange)) :
    ∀ (pkg : PackageInfo) (m : DepMapKind) (dep spec : String),
      mapLookup (depMap m pkg) dep = some spec →
      isSpecialWorkspaceVersion spec = true →
      mapLookup (depMap m (applyChangesToPackage changes pkg)) dep = some spec := by
  induction changes with
  | nil => intro pkg m dep spec hl _; exact hl
  | cons cv rest ih =>
      intro pkg m dep spec hl hs
      unfold applyChangesToPackage at ih ⊢
      rw [List.foldl_cons]
      exact ih _ m dep spec (updateDependencyStep_special cv pkg m dep spec hl hs) hs

/-- A change for dep rewrites dep's truthy specifiers in every map when the
first-found specifier is not a wildcard; later changes (distinct keys) leave
them alone. -/
theorem applyChangesToPackage_rewrite (changes : List (String × VersionChange)) :
    ∀ (pkg : PackageInfo) (dep : String) (vc : VersionChange),
      (changes.map Prod.fst).Nodup → (dep, vc) ∈ changes →
      ∀ s₀, lookupSpecifier pkg dep = some s₀ → isSpecialWorkspaceVersion s₀ = false →
      ∀ m spec, mapLookup (depMap m pkg) dep = some spec → spec ≠ "" →
        mapLookup (depMap m (applyChangesToPackage changes pkg)) dep =
          some (rewriteSpec spec vc.new) := by
  induction changes with
  | nil =>
      intro pkg dep vc _ hmem
      exact absurd hmem (List.not_mem_nil _)
  | cons cv rest ih =>
      intro pkg dep vc hnodup hmem s₀ hs₀ hns m spec hspec hne
      obtain ⟨cvk, cvv⟩ := cv
      rw [List.map_cons] at hnodup
      have hnodup' := (List.nodup_cons.mp hnodup).2
      unfold applyChangesToPackage at ih ⊢
      rw [List.foldl_cons]
      rcases List.mem_cons.mp hmem with heq | hmem'
      · cases heq
        have hstep : updateDependencyStep (dep, vc) pkg =
            updatePackageDependency pkg dep vc.new := by
          unfold updateDependencyStep
          rw [hs₀]
          dsimp only
          rw [if_neg (by simp [hns])]
        rw [hstep]
        have hafter : mapLookup (depMap m (updatePackageDependency pkg dep vc.new)) dep =
            some (rewriteSpec spec vc.new) := by
          rw [depMap_updatePackageDependency,
            mapLookup_rewriteDepMap_eq _ _ _ _ hspec hne]
        have hrest : ∀ cv', cv' ∈ rest → cv'.1 ≠ dep := by
          intro cv' h' habs
          have hfst : cv'.1 ∈ rest.map Prod.fst := List.mem_map_of_mem Prod.fst h'
          rw [habs] at hfst
          exact (List.nodup_cons.mp hnodup).1 hfst
        have hframe := applyChangesToPackage_frame rest
          (updatePackageDependency pkg dep vc.new) dep hrest m
        unfold applyChangesToPackage at hframe
        rw [hframe, hafter]
      · have hkne : cvk ≠ dep := by
          intro habs
          have hfst : dep ∈ rest.map Prod.fst := List.mem_map_of_mem Prod.fst hmem'
          exact (List.nodup_cons.mp hnodup).1 (habs ▸ hfst)
        have hframe : ∀ m', mapLookup (depMap m' (updateDependencyStep (cvk, cvv) pkg)) dep =
            mapLookup (depMap m' pkg) dep :=
          fun m' => updateDependencyStep_frame (cvk, cvv) pkg dep hkne m'
        have hls' : lookupSpecifier (updateDependencyStep (cvk, cvv) pkg) dep = some s₀ := by
          rw [lookupSpecifier_frame pkg (updateDependencyStep (cvk, cvv) pkg) dep hframe]
          exact hs₀
        have hspec' : mapLookup (depMap m (updateDependencyStep (cvk, cvv) pkg)) dep =
            some spec := by
          rw [hframe m]
          exact hspec
        exact ih _ dep vc hnodup' hmem' s₀ hls' hns m spec hspec' hne

/-- A change for dep whose first-found specifier is a wildcard leaves every
specifier of dep in that package unchanged. -/
theorem applyChangesToPackage_skip (changes : List (String × VersionChange)) :
    ∀ (pkg : PackageInfo) (dep : String) (vc : VersionChange),
      (changes.map Prod.fst).Nodup → (dep, vc) ∈ changes →
      ∀ s₀, lookupSpecifier pkg dep = some s₀ → isSpecialWorkspaceVersion s₀ = true →
      ∀ m, mapLookup (depMap m (applyChangesToPackage changes pkg)) dep =
        mapLookup (depMap m pkg) dep := by
  induction changes with
  | nil =>
      intro pkg dep vc _ hmem
      exact absurd hmem (List.not_mem_nil _)
  | cons cv rest ih =>
      intro pkg dep vc hnodup hmem s₀ hs₀ hsp m
      obtain ⟨cvk, cvv⟩ := cv
      rw [List.map_cons] at hnodup
      have hnodup' := (List.nodup_cons.mp hnodup).2
      unfold applyChangesToPackage at ih ⊢
      rw [List.foldl_cons]
      rcases List.mem_cons.mp hmem with heq | hmem'
      · cases heq
        have hstep : updateDependencyStep (dep, vc) pkg = pkg := by
          unfold updateDependencyStep
          rw [hs₀]
          dsimp only
          rw [if_pos hsp]
        rw [hstep]
        have hrest : ∀ cv', cv' ∈ rest → cv'.1 ≠ dep := by
          intro cv' h' habs
          have hfst : cv'.1 ∈ rest.map Prod.fst := List.mem_map_of_mem Prod.fst h'
          rw [habs] at hfst
          exact (List.nodup_cons.mp hnodup).1 hfst
        have hframe := applyChangesToPackage_frame rest pkg dep hrest m
        unfold applyChangesToPackage at hframe
        exact hframe
      · have hkne : cvk ≠ dep := by
          intro habs
          have hfst : dep ∈ rest.map Prod.fst := List.mem_map_of_mem Prod.fst hmem'
          exact (List.nodup_cons.mp hnodup).1 (habs ▸ hfst)
        have hframe : ∀ m', mapLookup (depMap m' (updateDependencyStep (cvk, cvv) pkg)) dep =
            mapLookup (depMap m' pkg) dep :=
          fun m' => updateDependencyStep_frame (cvk, cvv) pkg dep hkne m'
        have hls' : lookupSpecifier (updateDependencyStep (cvk, cvv) pkg) dep = some s₀ := by
          rw [lookupSpecifier_frame pkg (updateDependencyStep (cvk, cvv) pkg) dep hframe]
          exact hs₀
        rw [ih _ dep vc hnodup' hmem' s₀ hls' hsp m]
        exact hframe m

/-- C4 counterexample: a dependent declaring b as `workspace:*` in its
runtime map and `workspace:1.0.0` in its dev map is skipped entirely when b
is bumped — the first-found specifier is a wildcard, so the
`workspace:1.0.0` dev specifier is NOT rewritten to `workspace:1.0.1`,
contradicting the claim that every `workspace:<version>` specifier has its
version part substituted. -/
theorem updateDependencyVersions_counterexample :
    updateDependencyVersions
      [⟨"a", "1.0.0", "packages/a", [("b", "workspace:*")], [("b", "workspace:1.0.0")], []⟩]
      [("b", ⟨"1.0.0", "1.0.1"⟩)] =
      [⟨"a", "1.0.0", "packages/a", [("b", "workspace:*")], [("b", "workspace:1.0.0")], []⟩]
    ∧ ("workspace:1.0.0" : String) ≠ "workspace:" ++ "1.0.1" := by
  exact ⟨rfl, by decide⟩

/-- C4 (amended): after applying a version-change set (one change per
package, as produced by the batch updater), (1) every dependency specifier
that was a workspace wildcard is unchanged, in every map; (2) for a
dependent whose first-found specifier (runtime, then dev, then peer; empty
strings skipped) for a bumped package is NOT a wildcard, every truthy
specifier it holds for that package is rewritten — wildcards kept,
`workspace:<version>` to `workspace:<new version>`, plain specifiers to the
bare new version; (3) if that first-found specifier IS a wildcard, all of
the dependent's specifiers for that package are left untouched.  The first
conjunct ties the per-package function to updateDependencyVersions. -/
theorem updateDependencyVersions_spec (packages : List PackageInfo)
    (changes : List (String × VersionChange)) :
    (updateDependencyVersions packages changes =
      packages.map (applyChangesToPackage changes))
    ∧ (∀ pkg m dep spec, mapLookup (depMap m pkg) dep = some spec →
        isSpecialWorkspaceVersion spec = true →
        mapLookup (depMap m (applyChangesToPackage changes pkg)) dep = some spec)
    ∧ (∀ pkg dep vc, (changes.map Prod.fst).Nodup → (dep, vc) ∈ changes →
        ∀ s₀, lookupSpecifier pkg dep = some s₀ → isSpecialWorkspaceVersion s₀ = false →
        ∀ m spec, mapLookup (depMap m pkg) dep = some spec → spec ≠ "" →
          mapLookup (depMap m (applyChangesToPackage changes pkg)) dep =
            some (if isSpecialWorkspaceVersion spec then spec
                  else if jsStartsWith spec "workspace:" then "workspace:" ++ vc.new
                  else vc.new))
    ∧ (∀ pkg dep vc, (changes.map Prod.fst).Nodup → (dep, vc) ∈ changes →
        ∀ s₀, lookupSpecifier pkg dep = some s₀ → isSpecialWorkspaceVersion s₀ = true →
        ∀ m, mapLookup (depMap m (applyChangesToPackage changes pkg)) dep =
          mapLookup (depMap m pkg) dep) := by
  refine ⟨rfl, applyChangesToPackage_special changes, ?_, applyChangesToPackage_skip changes⟩
  intro pkg dep vc hnodup hmem s₀ hs₀ hns m spec hspec hne
  rw [applyChangesToPackage_rewrite changes pkg dep vc hnodup hmem s₀ hs₀ hns m spec hspec hne,
    rewriteSpec_eq_claim]

/-- Witness for C4's amended theorem on a concrete dependent: the plain
specifier for b becomes the bare 1.0.1, the dev `workspace:1.0.0` becomes
`workspace:1.0.1`, and the wildcard on c survives a bump of c. -/
theorem updateDependencyVersions_spec_witness :
    mapLookup (depMap DepMapKind.runtime (applyChangesToPackage
      [("b", ⟨"1.0.0", "1.0.1"⟩)]
      ⟨"a", "1.0.0", "packages/a", [("b", "1.0.0"), ("c", "workspace:*")],
        [("b", "workspace:1.0.0")], []⟩)) "b" = some "1.0.1"
    ∧ mapLookup (depMap DepMapKind.dev (applyChangesToPackage
        [("b", ⟨"1.0.0", "1.0.1"⟩)]
        ⟨"a", "1.0.0", "packages/a", [("b", "1.0.0"), ("c", "workspace:*")],
          [("b", "workspace:1.0.0")], []⟩)) "b" = some ("workspace:" ++ "1.0.1")
    ∧ mapLookup (depMap DepMapKind.runtime (applyChangesToPackage
        [("c", ⟨"1.0.0", "1.0.1"⟩)]
        ⟨"a", "1.0.0", "packages/a", [("b", "1.0.0"), ("c", "workspace:*")],
          [("b", "workspace:1.0.0")], []⟩)) "c" = some "workspace:*" := by
  refine ⟨?_, ?_, ?_⟩
  · have h := (updateDependencyVersions_spec [] [("b", ⟨"1.0.0", "1.0.1"⟩)]).2.2.1
      ⟨"a", "1.0.0", "packages/a", [("b", "1.0.0"), ("c", "workspace:*")],
        [("b", "workspace:1.0.0")], []⟩
      "b" ⟨"1.0.0", "1.0.1"⟩ (by decide) (by simp) "1.0.0" (by rfl) (by decide)
      DepMapKind.runtime "1.0.0" (by rfl) (by decide)
    simpa using h
  · have h := (updateDependencyVersions_spec [] [("b", ⟨"1.0.0", "1.0.1"⟩)]).2.2.1
      ⟨"a", "1.0.0", "packages/a", [("b", "1.0.0"), ("c", "workspace:*")],
        [("b", "workspace:1.0.0")], []⟩
      "b" ⟨"1.0.0", "1.0.1"⟩ (by decide) (by simp) "1.0.0" (by rfl) (by decide)
      DepMapKind.dev "workspace:1.0.0" (by rfl) (by decide)
    simpa using h
  · exact (updateDependencyVersions_spec [] [("c", ⟨"1.0.0", "1.0.1"⟩)]).2.1
      ⟨"a", "1.0.0", "packages/a", [("b", "1.0.0"), ("c", "workspace:*")],
        [("b", "workspace:1.0.0")], []⟩
      DepMapKind.runtime "c" "workspace:*" (by rfl) (by decide)

/-- C1: evaluation of checkVersionConflicts at the failing input.  A
dependent a declaring b as `workspace:*` IS reported as a conflict when b is
patch-bumped from 1.0.0 (node-semver satisfies is false on the invalid range
`workspace:*`), although the spec exempts workspace wildcards.  The
remaining conjuncts document the concrete-range behaviour on the same graph:
a major bump violating `^1.0.0` is reported, a patch bump satisfying it is
not. -/
theorem checkVersionConflicts_wildcard_bug :
    checkVersionConflicts
      [("a", ["b"]), ("b", [])]
      [⟨"a", "1.0.0", "packages/a", [("b", "workspace:*")], [], []⟩,
       ⟨"b", "1.0.0", "packages/b", [], [], []⟩]
      [⟨BumpType.patch, "b", "直接更新"⟩] =
      ["a 需要 b@workspace:*，但计划更新到 1.0.1"]
    ∧ semverSatisfies "1.0.1" "workspace:*" = false
    ∧ checkVersionConflicts
        [("a", ["b"]), ("b", [])]
        [⟨"a", "1.0.0", "packages/a", [("b", "^1.0.0")], [], []⟩,
         ⟨"b", "1.0.0", "packages/b", [], [], []⟩]
        [⟨BumpType.major, "b", "直接更新"⟩] =
        ["a 需要 b@^1.0.0，但计划更新到 2.0.0"]
    ∧ checkVersionConflicts
        [("a", ["b"]), ("b", [])]
        [⟨"a", "1.0.0", "packages/a", [("b", "^1.0.0")], [], []⟩,
         ⟨"b", "1.0.0", "packages/b", [], [], []⟩]
        [⟨BumpType.patch, "b", "直接更新"⟩] = [] := by
  exact ⟨by decide, by decide, by decide, by decide⟩
